import Mathlib

/-!
Verification of the boosted/bagged decision-tree ensemble trainer
(TMVA MethodBDT): shallow embedding of the AdaBoost and Bagging
reweighting passes, the ensemble evaluator, the variable-importance
aggregation and the weight-stream persistence, together with theorems
settling the specified properties.

Machine doubles are embedded as exact rationals; the natural logarithm
returned by the AdaBoost round is embedded as Real.log on the cast of
the rational boost weight.  Decision trees are external collaborators
and are embedded as abstract scoring functions (their CheckEvent); the
pseudo-random generator used by Bagging is external as well and is
embedded as an abstract function of the seed and the draw index.
-/

namespace BDT

/-- An event of the training sample: feature vector, class label
(signal or background) and a mutable weight. -/
structure Event where
  vars : List ℚ
  isSignal : Bool
  weight : ℚ

/-- SetWeight of an event. -/
def Event.setWeight (e : Event) (w : ℚ) : Event :=
  Event.mk e.vars e.isSignal w

/-- Total weight of a sample (the accumulation performed by the sumw
loop of AdaBoost). -/
def sumWeights (s : List Event) : ℚ :=
  (s.map Event.weight).sum

/-- The classification the AdaBoost loop derives from the tree score:
predicted signal iff CheckEvent gives a score above 0.5.  The tree is
an abstract scoring function (dt). -/
def isSignalType (dt : Event → ℚ) (e : Event) : Bool :=
  decide ((1 : ℚ) / 2 < dt e)

/-- The correctSelected flags recorded by the first AdaBoost loop. -/
def correctSelected (dt : Event → ℚ) (s : List Event) : List Bool :=
  s.map (fun e => isSignalType dt e == e.isSignal)

/-- sumwfalse: total weight of the events whose tree classification
disagrees with their label. -/
def sumwfalse (dt : Event → ℚ) (s : List Event) : ℚ :=
  ((s.filter (fun e => !(isSignalType dt e == e.isSignal))).map Event.weight).sum

/-- The error fraction err = sumwfalse / sumw. -/
def adaErr (dt : Event → ℚ) (s : List Event) : ℚ :=
  sumwfalse dt s / sumWeights s

/-- The boost weight: (1-err)/err when err is positive, the sentinel
1000 otherwise (adaBoostBeta is fixed to 1 in the source, so the
power-law branch is dead). -/
def adaBW (dt : Event → ℚ) (s : List Event) : ℚ :=
  if 0 < adaErr dt s then (1 - adaErr dt s) / adaErr dt s else 1000

/-- The second AdaBoost loop: multiply the weight of every event whose
correctSelected flag is false by the boost weight, leave the others
unchanged. -/
def applyBoost (bw : ℚ) : List Bool → List Event → List Event
  | _, [] => []
  | [], _ :: _ => []
  | b :: bs, e :: es =>
    (if b then e else e.setWeight (e.weight * bw)) :: applyBoost bw bs es

/-- The sample after the reweighting loop, before renormalisation. -/
def adaS1 (dt : Event → ℚ) (s : List Event) : List Event :=
  applyBoost (adaBW dt s) (correctSelected dt s) s

/-- The renormalisation loop: scale every weight by the factor c
(in the source c is sumw / newSumw). -/
def renorm (c : ℚ) (s : List Event) : List Event :=
  s.map (fun e => e.setWeight (e.weight * c))

/-- Result of one AdaBoost round: the reweighted sample, the boost
weight and the error fraction (the latter two are surfaced as
diagnostics by the source). -/
structure AdaResult where
  sample : List Event
  boostWeight : ℚ
  err : ℚ

/-- One AdaBoost round (TMVA::MethodBDT::AdaBoost): classify every
event with the tree, compute the error fraction, derive the boost
weight, reweight the misclassified events and renormalise every weight
by sumw / newSumw. -/
def AdaBoost (dt : Event → ℚ) (s : List Event) : AdaResult :=
  AdaResult.mk
    (renorm (sumWeights s / sumWeights (adaS1 dt s)) (adaS1 dt s))
    (adaBW dt s) (adaErr dt s)

/-- The value returned by the AdaBoost round: the natural logarithm of
the boost weight. -/
noncomputable def adaRoundWeight (dt : Event → ℚ) (s : List Event) : ℝ :=
  Real.log (((AdaBoost dt s).boostWeight : ℚ) : ℝ)

/-- The first Bagging loop: replace the weight of the j-th event by the
j-th draw of the generator stream Q. -/
def setRaw (Q : ℕ → ℚ) : ℕ → List Event → List Event
  | _, [] => []
  | j, e :: es => e.setWeight (Q j) :: setRaw Q (j + 1) es

/-- One Bagging round (TMVA::MethodBDT::Bagging).  The generator R is
an abstract deterministic function of the seed (the round index iTree)
and the draw index, modelling TRandom seeded with the round index.
Every event receives a fresh draw as its raw weight, all weights are
then rescaled by size / newSumw, and the constant round weight 1 is
returned. -/
def Bagging (R : ℤ → ℕ → ℚ) (i : ℤ) (s : List Event) : List Event × ℚ :=
  let s1 := setRaw (R i) 0 s
  let nsw := sumWeights s1
  (s1.map (fun e => e.setWeight (e.weight * (s.length : ℚ) / nsw)), 1)

/-- A forest entry for evaluation: the tree as an abstract scoring
function (CheckEvent with the leaf-mode flag already folded in) and
its stored boost weight. -/
abbrev EvalForest : Type := List ((Event → ℚ) × ℚ)

/-- One step of the accumulation loop of GetMvaValue: the pair carries
(myMVA, norm). -/
def mvaStep (weighted : Bool) (ev : Event) (a : ℚ × ℚ) (p : (Event → ℚ) × ℚ) : ℚ × ℚ :=
  if weighted then (a.1 + p.2 * p.1 ev, a.2 + p.2) else (a.1 + p.1 ev, a.2 + 1)

/-- The myMVA accumulator after the loop of GetMvaValue. -/
def evalMyMVA (weighted : Bool) (forest : EvalForest) (ev : Event) : ℚ :=
  (forest.foldl (mvaStep weighted ev) (0, 0)).1

/-- The norm accumulator after the loop of GetMvaValue. -/
def evalNorm (weighted : Bool) (forest : EvalForest) (ev : Event) : ℚ :=
  (forest.foldl (mvaStep weighted ev) (0, 0)).2

/-- TMVA::MethodBDT::GetMvaValue: accumulate myMVA and norm over the
forest and return myMVA / norm. -/
def GetMvaValue (weighted : Bool) (forest : EvalForest) (ev : Event) : ℚ :=
  evalMyMVA weighted forest ev / evalNorm weighted forest ev

/-- GetMvaValue with an explicit error channel.  The embedding reserves
the error constructor for fatal exits; the source function contains no
exit path, so the body is always ok. -/
def GetMvaValueE (weighted : Bool) (forest : EvalForest) (ev : Event) : Except String ℚ :=
  Except.ok (GetMvaValue weighted forest ev)

/-- std::vector resize to n entries, new entries value-initialised to
zero (the state of fVariableImportance after the resize call). -/
def resizeTo (v : List ℚ) (n : ℕ) : List ℚ :=
  v.take n ++ List.replicate (n - v.length) 0

/-- The inner accumulation loop of GetVariableImportance: add one
tree's relative-importance vector into the member vector, position by
position over the tree vector's length. -/
def accumImp : List ℚ → List ℚ → List ℚ
  | acc, [] => acc
  | [], _ :: _ => []
  | a :: as, b :: bs => (a + b) :: accumImp as bs

/-- TMVA::MethodBDT::GetVariableImportance as a state transformer: the
member vector prior (fVariableImportance before the call) is resized to
nvar, every tree's importance vector (supplied by the Tree collaborator,
one per forest entry) is accumulated into it, and the result is divided
elementwise by its total.  The returned vector is also the new state of
the member. -/
def GetVariableImportance (prior : List ℚ) (nvar : ℕ) (imps : List (List ℚ)) : List ℚ :=
  let v0 := resizeTo prior nvar
  let v1 := imps.foldl accumImp v0
  v1.map (fun x => x / v1.sum)

/-- Elementwise sum of the per-tree importance vectors, written from
the specification (sum each tree's vector elementwise across the
forest) for comparison with the implementation. -/
def elemSum (nvar : ℕ) (imps : List (List ℚ)) : List ℚ :=
  imps.foldl (fun a v => a.zipWith (· + ·) v) (List.replicate nvar 0)

/-- Errors of the weight-stream reader. -/
inductive ReadErr
  | mismatch
  | truncated

/-- The abstract serialized weight stream: the declared ensemble size,
then one record per tree holding (declared round index, round weight,
opaque tree blob).  Tree serialisation is owned by the collaborator, so
a blob of type T stands for it. -/
structure WStream (T : Type) where
  n : ℤ
  entries : List (ℤ × ℚ × T)

/-- A trained forest for persistence purposes: the ordered (tree blob,
round weight) list, pairing fForest with fBoostWeights. -/
abbrev Forest (T : Type) : Type := List (T × ℚ)

/-- The record loop of WriteWeightsToStream: entry i carries the
running index (starting from k) and the stored boost weight. -/
def writeEntries {T : Type} (k : ℤ) : Forest T → List (ℤ × ℚ × T)
  | [] => []
  | (t, w) :: rest => (k, w, t) :: writeEntries (k + 1) rest

/-- TMVA::MethodBDT::WriteWeightsToStream: emit the forest size, then
for each entry in order its index, weight and tree blob. -/
def WriteWeightsToStream {T : Type} (f : Forest T) : WStream T :=
  WStream.mk (f.length : ℤ) (writeEntries 0 f)

/-- The read loop of ReadWeightsFromStream: for i below the declared
size, parse one record, check that the declared index equals the loop
counter (mismatch is fatal), append and continue.  Running out of
records is a fatal parse failure. -/
def readLoop {T : Type} (n : ℤ) : ℤ → List (ℤ × ℚ × T) → Except ReadErr (Forest T)
  | i, [] => if n ≤ i then Except.ok [] else Except.error ReadErr.truncated
  | i, (idx, w, t) :: rest =>
    if n ≤ i then Except.ok []
    else if idx = i then
      match readLoop n (i + 1) rest with
      | Except.ok f => Except.ok ((t, w) :: f)
      | Except.error err => Except.error err
    else Except.error ReadErr.mismatch

/-- TMVA::MethodBDT::ReadWeightsFromStream: the previous forest
contents are discarded (the source deletes and clears fForest and
fBoostWeights before the loop), then the declared number of records is
read with the sequential-index check. -/
def ReadWeightsFromStream {T : Type} (_prev : Forest T) (s : WStream T) : Except ReadErr (Forest T) :=
  readLoop s.n 0 s.entries

end BDT


namespace BDT

lemma setWeight_weight (e : Event) (w : ℚ) : (e.setWeight w).weight = w := rfl

lemma setWeight_self (e : Event) : e.setWeight e.weight = e := rfl

lemma sumWeights_nil : sumWeights [] = 0 := rfl

lemma sumWeights_cons (e : Event) (s : List Event) :
    sumWeights (e :: s) = e.weight + sumWeights s := by
  simp [sumWeights]

lemma correctSelected_cons (dt : Event → ℚ) (e : Event) (es : List Event) :
    correctSelected dt (e :: es) = (isSignalType dt e == e.isSignal) :: correctSelected dt es := rfl

lemma applyBoost_cons (bw : ℚ) (b : Bool) (bs : List Bool) (e : Event) (es : List Event) :
    applyBoost bw (b :: bs) (e :: es)
      = (if b then e else e.setWeight (e.weight * bw)) :: applyBoost bw bs es := rfl

lemma sumwfalse_cons (dt : Event → ℚ) (e : Event) (s : List Event) :
    sumwfalse dt (e :: s)
      = (if isSignalType dt e == e.isSignal then 0 else e.weight) + sumwfalse dt s := by
  cases h : isSignalType dt e == e.isSignal <;>
    simp [sumwfalse, List.filter_cons, h]

lemma sumWeights_applyBoost (dt : Event → ℚ) (bw : ℚ) (s : List Event) :
    sumWeights (applyBoost bw (correctSelected dt s) s)
      = sumWeights s + (bw - 1) * sumwfalse dt s := by
  induction s with
  | nil => simp [correctSelected, applyBoost, sumWeights, sumwfalse]
  | cons e es ih =>
    rw [correctSelected_cons, applyBoost_cons]
    cases h : isSignalType dt e == e.isSignal <;>
      · simp only [h, if_true, if_false, Bool.false_eq_true, sumWeights_cons,
          sumwfalse_cons, setWeight_weight, ih]
        ring

lemma map_weight_applyBoost (dt : Event → ℚ) (bw : ℚ) (s : List Event) :
    (applyBoost bw (correctSelected dt s) s).map Event.weight
      = s.map (fun e => if isSignalType dt e == e.isSignal then e.weight else e.weight * bw) := by
  induction s with
  | nil => rfl
  | cons e es ih =>
    rw [correctSelected_cons, applyBoost_cons]
    cases h : isSignalType dt e == e.isSignal
    · have h' : ¬ isSignalType dt e = e.isSignal := by simpa using h
      simp [h, h', setWeight_weight, ih]
    · have h' : isSignalType dt e = e.isSignal := by simpa using h
      simp [h, h', setWeight_weight, ih]

lemma sumWeights_renorm (c : ℚ) (s : List Event) :
    sumWeights (renorm c s) = sumWeights s * c := by
  induction s with
  | nil => simp [renorm, sumWeights]
  | cons e es ih =>
    simp only [renorm, List.map_cons, sumWeights_cons, setWeight_weight] at ih ⊢
    rw [ih]
    ring

lemma sumWeights_nonneg (s : List Event) (h : ∀ e ∈ s, 0 ≤ e.weight) :
    0 ≤ sumWeights s := by
  apply List.sum_nonneg
  intro x hx
  rcases List.mem_map.mp hx with ⟨e, he, rfl⟩
  exact h e he

lemma sumwfalse_nonneg (dt : Event → ℚ) (s : List Event) (h : ∀ e ∈ s, 0 ≤ e.weight) :
    0 ≤ sumwfalse dt s := by
  apply List.sum_nonneg
  intro x hx
  rcases List.mem_map.mp hx with ⟨e, he, rfl⟩
  exact h e (List.mem_of_mem_filter he)

lemma adaErr_nonneg (dt : Event → ℚ) (s : List Event) (h : ∀ e ∈ s, 0 ≤ e.weight) :
    0 ≤ adaErr dt s :=
  div_nonneg (sumwfalse_nonneg dt s h) (sumWeights_nonneg s h)

lemma adaS1_sum_pos (dt : Event → ℚ) (s : List Event)
    (hnn : ∀ e ∈ s, 0 ≤ e.weight) (hpos : 0 < sumWeights s)
    (hlt : sumwfalse dt s < sumWeights s) :
    0 < sumWeights (adaS1 dt s) := by
  rw [adaS1, sumWeights_applyBoost]
  rcases eq_or_lt_of_le (sumwfalse_nonneg dt s hnn) with h0 | h0
  · rw [← h0]
    simpa using hpos
  · have herr : 0 < adaErr dt s := div_pos h0 hpos
    have hbw : adaBW dt s = (1 - adaErr dt s) / adaErr dt s := by
      rw [adaBW, if_pos herr]
    have herr1 : adaErr dt s < 1 := by
      rw [adaErr, div_lt_one hpos]
      exact hlt
    have hbwpos : 0 < adaBW dt s := by
      rw [hbw]
      exact div_pos (by linarith) herr
    have hexp : sumWeights s + (adaBW dt s - 1) * sumwfalse dt s
        = (sumWeights s - sumwfalse dt s) + adaBW dt s * sumwfalse dt s := by ring
    rw [hexp]
    have := mul_pos hbwpos h0
    linarith

/-- Claim C1 (amended): in exact arithmetic, one AdaBoost round
conserves the total sample weight for every non-empty sample with
non-negative weights and positive total weight in which the
misclassified weight is strictly below the total (error fraction
below 1); when the whole weight is misclassified the boost weight is 0
and the renormalisation divides by a zero newSumw, so conservation
fails there. -/
theorem adaBoost_weight_conservation (dt : Event → ℚ) (s : List Event)
    (hne : s ≠ []) (hnn : ∀ e ∈ s, 0 ≤ e.weight)
    (hpos : 0 < sumWeights s) (hlt : sumwfalse dt s < sumWeights s) :
    sumWeights (AdaBoost dt s).sample = sumWeights s := by
  have h1 : 0 < sumWeights (adaS1 dt s) := adaS1_sum_pos dt s hnn hpos hlt
  show sumWeights (renorm (sumWeights s / sumWeights (adaS1 dt s)) (adaS1 dt s)) = sumWeights s
  rw [sumWeights_renorm, mul_comm]
  exact div_mul_cancel₀ _ (ne_of_gt h1)

/-- Claim C1 counterexample: a single signal event of weight 1 scored 0
by the tree is misclassified, the error fraction is 1, the boost weight
(1-err)/err is 0, and the round zeroes the total weight instead of
conserving it (the source renormalisation multiplies by sumw divided by
a zero newSumw, which in IEEE arithmetic yields NaN and in this exact
embedding yields 0; either way the total is not conserved). -/
theorem adaBoost_conservation_fails_total_misclassification :
    sumWeights (AdaBoost (fun _ => 0) [Event.mk [] true 1]).sample
      ≠ sumWeights [Event.mk [] true 1] := by
  norm_num [AdaBoost, adaBW, adaErr, sumWeights, sumwfalse, correctSelected, isSignalType,
    applyBoost, adaS1, renorm, Event.setWeight]

/-- Witness for the amended C1 theorem at a concrete sample with
err = 1/5: the total weight 10 is conserved. -/
theorem adaBoost_weight_conservation_witness :
    sumWeights (AdaBoost (fun e => e.vars.getD 0 0) [Event.mk [1] true 8, Event.mk [0] true 2]).sample
      = sumWeights [Event.mk [1] true 8, Event.mk [0] true 2] := by
  apply adaBoost_weight_conservation
  · simp
  · intro e he
    simp only [List.mem_cons, List.not_mem_nil, or_false] at he
    rcases he with rfl | rfl <;> norm_num
  · norm_num [sumWeights]
  · norm_num [sumwfalse, sumWeights, isSignalType, List.filter_cons]

end BDT

namespace BDT

lemma map_weight_adaS1 (dt : Event → ℚ) (s : List Event) :
    (adaS1 dt s).map Event.weight
      = s.map (fun e =>
          if decide ((1 : ℚ) / 2 < dt e) = e.isSignal then e.weight
          else e.weight * adaBW dt s) := by
  rw [adaS1, map_weight_applyBoost]
  apply List.map_congr_left
  intro e _
  by_cases h : decide ((1 : ℚ) / 2 < dt e) = e.isSignal
  · simp [isSignalType, h]
  · simp [isSignalType, h]

lemma misclassified_weight_zero (dt : Event → ℚ) (s : List Event)
    (hnn : ∀ e ∈ s, 0 ≤ e.weight) (hz : sumwfalse dt s = 0) :
    ∀ e ∈ s, (isSignalType dt e == e.isSignal) = false → e.weight = 0 := by
  induction s with
  | nil => simp
  | cons e es ih =>
    have h0 : 0 ≤ e.weight := hnn e (by simp)
    have htail : ∀ x ∈ es, 0 ≤ x.weight := fun x hx => hnn x (by simp [hx])
    have hts : 0 ≤ sumwfalse dt es := sumwfalse_nonneg dt es htail
    rw [sumwfalse_cons] at hz
    have hhead : 0 ≤ (if isSignalType dt e == e.isSignal then 0 else e.weight) := by
      cases hc : isSignalType dt e == e.isSignal <;> simp [hc, h0]
    intro x hx hb
    rcases List.mem_cons.mp hx with rfl | hx'
    · rw [hb] at hz
      simp only [Bool.false_eq_true, if_false] at hz
      linarith
    · have htz : sumwfalse dt es = 0 := le_antisymm (by linarith) hts
      exact ih htail htz x hx' hb

lemma applyBoost_id_of_zero (dt : Event → ℚ) (bw : ℚ) (s : List Event)
    (h : ∀ e ∈ s, (isSignalType dt e == e.isSignal) = false → e.weight = 0) :
    applyBoost bw (correctSelected dt s) s = s := by
  induction s with
  | nil => rfl
  | cons e es ih =>
    rw [correctSelected_cons, applyBoost_cons]
    have ih' := ih (fun x hx hb => h x (by simp [hx]) hb)
    cases hb : isSignalType dt e == e.isSignal
    · have hw : e.weight = 0 := h e (by simp) hb
      simp only [Bool.false_eq_true, if_false]
      rw [ih', hw, zero_mul, ← hw, setWeight_self]
    · simp only [if_true]
      rw [ih']

lemma renorm_one (s : List Event) : renorm 1 s = s := by
  simp [renorm, setWeight_self]

lemma adaErr_zero (dt : Event → ℚ) (s : List Event) (hz : sumwfalse dt s = 0) :
    adaErr dt s = 0 := by
  rw [adaErr, hz, zero_div]

lemma adaBW_of_zero (dt : Event → ℚ) (s : List Event) (hz : sumwfalse dt s = 0) :
    adaBW dt s = 1000 := by
  rw [adaBW, adaErr_zero dt s hz]
  norm_num

/-- Claim C2: one AdaBoost round computes err = sumwfalse / sumw from
the score-above-0.5 classification, uses boostWeight = (1-err)/err when
err is positive and the sentinel 1000 when err = 0 (no special case at
err at or above 0.5), multiplies exactly the misclassified events'
weights by boostWeight before the common renormalisation by
sumw/newSumw, and returns ln(boostWeight); when sumwfalse = 0 the round
returns ln(1000) and leaves every event weight unchanged. -/
theorem adaBoost_round_postcondition (dt : Event → ℚ) (s : List Event)
    (hne : s ≠ []) (hnn : ∀ e ∈ s, 0 ≤ e.weight) (hpos : 0 < sumWeights s) :
    (AdaBoost dt s).err = sumwfalse dt s / sumWeights s
    ∧ (0 < (AdaBoost dt s).err →
        (AdaBoost dt s).boostWeight = (1 - (AdaBoost dt s).err) / (AdaBoost dt s).err)
    ∧ ((AdaBoost dt s).err = 0 → (AdaBoost dt s).boostWeight = 1000)
    ∧ (adaS1 dt s).map Event.weight
        = s.map (fun e =>
            if decide ((1 : ℚ) / 2 < dt e) = e.isSignal then e.weight
            else e.weight * (AdaBoost dt s).boostWeight)
    ∧ (AdaBoost dt s).sample
        = renorm (sumWeights s / sumWeights (adaS1 dt s)) (adaS1 dt s)
    ∧ adaRoundWeight dt s = Real.log (((AdaBoost dt s).boostWeight : ℚ) : ℝ)
    ∧ (sumwfalse dt s = 0 →
        (AdaBoost dt s).sample = s ∧ adaRoundWeight dt s = Real.log 1000) := by
  refine ⟨rfl, ?_, ?_, ?_, rfl, rfl, ?_⟩
  · intro h
    show adaBW dt s = (1 - adaErr dt s) / adaErr dt s
    rw [adaBW, if_pos (show 0 < adaErr dt s from h)]
  · intro h
    show adaBW dt s = 1000
    rw [adaBW, show adaErr dt s = 0 from h]
    norm_num
  · exact map_weight_adaS1 dt s
  · intro hz
    have hid : adaS1 dt s = s :=
      applyBoost_id_of_zero dt _ s (misclassified_weight_zero dt s hnn hz)
    constructor
    · show renorm (sumWeights s / sumWeights (adaS1 dt s)) (adaS1 dt s) = s
      rw [hid, div_self (ne_of_gt hpos), renorm_one]
    · show Real.log (((AdaBoost dt s).boostWeight : ℚ) : ℝ) = Real.log 1000
      rw [show (AdaBoost dt s).boostWeight = 1000 from adaBW_of_zero dt s hz]
      norm_num

/-- Witness for C2 at two concrete rounds: one with sumw = 10 and
sumwfalse = 2 (err = 1/5, boostWeight 4, round weight ln 4) and one
with a perfectly classifying tree (round weight ln 1000, sample
untouched). -/
theorem adaBoost_round_postcondition_witness :
    (AdaBoost (fun e => e.vars.getD 0 0) [Event.mk [1] true 8, Event.mk [0] true 2]).err = 1 / 5
    ∧ (AdaBoost (fun e => e.vars.getD 0 0) [Event.mk [1] true 8, Event.mk [0] true 2]).boostWeight = 4
    ∧ adaRoundWeight (fun e => e.vars.getD 0 0) [Event.mk [1] true 8, Event.mk [0] true 2]
        = Real.log 4
    ∧ (AdaBoost (fun e => if e.isSignal then 1 else 0) [Event.mk [] true 3, Event.mk [] false 2]).sample
        = [Event.mk [] true 3, Event.mk [] false 2]
    ∧ adaRoundWeight (fun e => if e.isSignal then 1 else 0) [Event.mk [] true 3, Event.mk [] false 2]
        = Real.log 1000 := by
  have hnn1 : ∀ e ∈ [Event.mk [1] true 8, Event.mk [0] true 2], 0 ≤ e.weight := by
    intro e he
    simp only [List.mem_cons, List.not_mem_nil, or_false] at he
    rcases he with rfl | rfl <;> norm_num
  have h := adaBoost_round_postcondition (fun e => e.vars.getD 0 0)
    [Event.mk [1] true 8, Event.mk [0] true 2] (by simp) hnn1 (by norm_num [sumWeights])
  have herr : (AdaBoost (fun e => e.vars.getD 0 0) [Event.mk [1] true 8, Event.mk [0] true 2]).err = 1 / 5 := by
    rw [h.1]
    norm_num [sumwfalse, sumWeights, isSignalType, List.filter_cons]
  have hbw : (AdaBoost (fun e => e.vars.getD 0 0) [Event.mk [1] true 8, Event.mk [0] true 2]).boostWeight = 4 := by
    rw [h.2.1 (by rw [herr]; norm_num), herr]
    norm_num
  have hnn2 : ∀ e ∈ [Event.mk [] true 3, Event.mk [] false 2], 0 ≤ e.weight := by
    intro e he
    simp only [List.mem_cons, List.not_mem_nil, or_false] at he
    rcases he with rfl | rfl <;> norm_num
  have h2 := adaBoost_round_postcondition (fun e => if e.isSignal then 1 else 0)
    [Event.mk [] true 3, Event.mk [] false 2] (by simp) hnn2 (by norm_num [sumWeights])
  have hz2 : sumwfalse (fun e => if e.isSignal then (1 : ℚ) else 0)
      [Event.mk [] true 3, Event.mk [] false 2] = 0 := by
    norm_num [sumwfalse, isSignalType, List.filter_cons]
  refine ⟨herr, hbw, ?_, (h2.2.2.2.2.2.2 hz2).1, (h2.2.2.2.2.2.2 hz2).2⟩
  rw [h.2.2.2.2.2.1, hbw]
  norm_num

end BDT


namespace BDT

lemma map_weight_setRaw (Q : ℕ → ℚ) (k : ℕ) (s : List Event) :
    (setRaw Q k s).map Event.weight = (List.range s.length).map (fun j => Q (k + j)) := by
  induction s generalizing k with
  | nil => rfl
  | cons a as ih =>
    rw [setRaw]
    simp only [List.map_cons, setWeight_weight, List.length_cons, List.range_succ_eq_map,
      ih, List.map_map]
    congr 1
    apply List.map_congr_left
    intro j _
    simp only [Function.comp_apply]
    congr 1
    omega

lemma sum_map_mul_const (l : List ℚ) (c : ℚ) : (l.map (fun x => x * c)).sum = l.sum * c := by
  induction l with
  | nil => simp
  | cons x xs ih =>
    simp [ih]
    ring

lemma map_weight_bagging (R : ℤ → ℕ → ℚ) (i : ℤ) (s : List Event) :
    (Bagging R i s).1.map Event.weight
      = (List.range s.length).map
          (fun j => R i j * (s.length : ℚ) / ((List.range s.length).map (R i)).sum) := by
  have hs1 : (setRaw (R i) 0 s).map Event.weight = (List.range s.length).map (R i) := by
    rw [map_weight_setRaw]
    simp
  show ((setRaw (R i) 0 s).map
      (fun e => e.setWeight (e.weight * (s.length : ℚ) / sumWeights (setRaw (R i) 0 s)))).map Event.weight
    = _
  rw [List.map_map]
  have hcomp : (Event.weight ∘ fun e =>
      e.setWeight (e.weight * (s.length : ℚ) / sumWeights (setRaw (R i) 0 s)))
      = (fun w => w * (s.length : ℚ) / sumWeights (setRaw (R i) 0 s)) ∘ Event.weight := by
    funext e
    simp [Function.comp, setWeight_weight]
  rw [hcomp, ← List.map_map, hs1, List.map_map]
  apply List.map_congr_left
  intro j _
  simp only [Function.comp_apply]
  rw [sumWeights, hs1]

/-- Claim C4: one Bagging round replaces the j-th event's weight by the
j-th generator draw rescaled by the sample size over the sum of the raw
draws, so — whenever that sum is nonzero, which the actual generator
guarantees — the total weight afterwards equals the event count
exactly, and the round returns the constant round weight 1 for every
generator, round index and sample. -/
theorem bagging_round_postcondition (R : ℤ → ℕ → ℚ) (i : ℤ) (s : List Event)
    (hne : s ≠ []) (hr : ∀ j, 0 ≤ R i j ∧ R i j < 1)
    (hpos : 0 < ((List.range s.length).map (R i)).sum) :
    (Bagging R i s).1.map Event.weight
      = (List.range s.length).map
          (fun j => R i j * (s.length : ℚ) / ((List.range s.length).map (R i)).sum)
    ∧ sumWeights (Bagging R i s).1 = (s.length : ℚ)
    ∧ ∀ (R' : ℤ → ℕ → ℚ) (i' : ℤ) (s' : List Event), (Bagging R' i' s').2 = 1 := by
  refine ⟨map_weight_bagging R i s, ?_, fun _ _ _ => rfl⟩
  rw [sumWeights, map_weight_bagging R i s]
  have hfun : (fun j => R i j * (s.length : ℚ) / ((List.range s.length).map (R i)).sum)
      = (fun w => w * ((s.length : ℚ) / ((List.range s.length).map (R i)).sum)) ∘ (R i) := by
    funext j
    simp [Function.comp, mul_div_assoc]
  rw [hfun, ← List.map_map, sum_map_mul_const, mul_comm]
  exact div_mul_cancel₀ _ (ne_of_gt hpos)

/-- Witness for C4 at a 2-event sample with all draws 1/2: the new
weights are [1, 1], the total is the event count 2, and the returned
round weight is 1. -/
theorem bagging_round_postcondition_witness :
    (Bagging (fun _ _ => (1 : ℚ) / 2) 0 [Event.mk [] true 5, Event.mk [] false 7]).1.map Event.weight
      = [1, 1]
    ∧ sumWeights (Bagging (fun _ _ => (1 : ℚ) / 2) 0 [Event.mk [] true 5, Event.mk [] false 7]).1 = 2
    ∧ (Bagging (fun _ _ => (1 : ℚ) / 2) 0 [Event.mk [] true 5, Event.mk [] false 7]).2 = 1 := by
  have h := bagging_round_postcondition (fun _ _ => (1 : ℚ) / 2) 0
    [Event.mk [] true 5, Event.mk [] false 7] (by simp)
    (fun j => ⟨by norm_num, by norm_num⟩)
    (by norm_num [List.range_succ])
  refine ⟨?_, ?_, h.2.2 (fun _ _ => (1 : ℚ) / 2) 0 [Event.mk [] true 5, Event.mk [] false 7]⟩
  · rw [h.1]
    norm_num [List.range_succ]
  · rw [h.2.1]
    norm_num

/-- Claim C9: Bagging is deterministic in the round index.  The
generator draws are a function of the seed only (TRandom seeded with
the round index), so two Bagging rounds with the same round index over
samples of the same size assign the same sequence of new weights. -/
theorem bagging_deterministic (R : ℤ → ℕ → ℚ) (i : ℤ) (s1 s2 : List Event)
    (h : s1.length = s2.length) :
    (Bagging R i s1).1.map Event.weight = (Bagging R i s2).1.map Event.weight := by
  rw [map_weight_bagging, map_weight_bagging, h]

/-- Witness for C9: two different samples of equal size receive the
same weight sequence from the same round index. -/
theorem bagging_deterministic_witness :
    (Bagging (fun _ j => (1 : ℚ) / (j + 3)) 1 [Event.mk [] true 5]).1.map Event.weight
      = (Bagging (fun _ j => (1 : ℚ) / (j + 3)) 1 [Event.mk [7] false 3]).1.map Event.weight :=
  bagging_deterministic (fun _ j => (1 : ℚ) / (j + 3)) 1
    [Event.mk [] true 5] [Event.mk [7] false 3] rfl

end BDT

namespace BDT

lemma foldl_mvaStep (weighted : Bool) (ev : Event) (f : EvalForest) (a b : ℚ) :
    f.foldl (mvaStep weighted ev) (a, b)
      = (a + (f.map (fun p => if weighted then p.2 * p.1 ev else p.1 ev)).sum,
         b + (f.map (fun p => if weighted then p.2 else 1)).sum) := by
  induction f generalizing a b with
  | nil => simp
  | cons p ps ih =>
    rw [List.foldl_cons]
    cases weighted <;>
      · simp only [mvaStep, if_true, if_false, Bool.false_eq_true, ih, List.map_cons,
          List.sum_cons, Prod.mk.injEq]
        constructor <;> ring

lemma sum_map_one (f : EvalForest) : (f.map (fun _ => (1 : ℚ))).sum = (f.length : ℚ) := by
  induction f with
  | nil => simp
  | cons p ps ih =>
    simp [ih, add_comm]

/-- Claim C5: the evaluator is a pure function of the forest and the
event; in weighted mode it returns the round-weight-weighted sum of the
per-tree scores divided by the sum of the round weights, and in
unweighted mode the plain mean of the per-tree scores (normalizer =
tree count). -/
theorem getMvaValue_aggregation (forest : EvalForest) (ev : Event) (hne : forest ≠ []) :
    GetMvaValue true forest ev
      = (forest.map (fun p => p.2 * p.1 ev)).sum / (forest.map (fun p => p.2)).sum
    ∧ GetMvaValue false forest ev
      = (forest.map (fun p => p.1 ev)).sum / (forest.length : ℚ) := by
  constructor
  · rw [GetMvaValue, evalMyMVA, evalNorm, foldl_mvaStep]
    simp
  · rw [GetMvaValue, evalMyMVA, evalNorm, foldl_mvaStep]
    simp [sum_map_one]

/-- Witness for C5 at the specified 2-tree forest with round weights
[2, 3] and per-event scores [0.8, 0.4]: the weighted score is 0.56 and
the unweighted score 0.6. -/
theorem getMvaValue_aggregation_witness :
    GetMvaValue true [(fun _ => (4 : ℚ) / 5, 2), (fun _ => (2 : ℚ) / 5, 3)] (Event.mk [] true 1)
      = 14 / 25
    ∧ GetMvaValue false [(fun _ => (4 : ℚ) / 5, 2), (fun _ => (2 : ℚ) / 5, 3)] (Event.mk [] true 1)
      = 3 / 5 := by
  have h := getMvaValue_aggregation [(fun _ => (4 : ℚ) / 5, 2), (fun _ => (2 : ℚ) / 5, 3)]
    (Event.mk [] true 1) (by simp)
  constructor
  · rw [h.1]
    norm_num
  · rw [h.2]
    norm_num

/-- Claim C6 counterexample: scoring with the empty forest has a zero
normalizer, yet the evaluation succeeds with an ordinary ok value — the
source contains no zero-normalizer check and reports no error (the
unguarded division yields NaN in IEEE arithmetic; this exact embedding
follows the division-by-zero convention and yields 0 — either way no
fatal-usage error is raised). -/
theorem zero_norm_eval_not_rejected :
    evalNorm true [] (Event.mk [] true 1) = 0
    ∧ GetMvaValueE true [] (Event.mk [] true 1) = Except.ok 0 := by
  constructor
  · rfl
  · rw [GetMvaValueE, GetMvaValue]
    norm_num [evalMyMVA, evalNorm]

/-- Claim C6 (amended): the evaluator performs no zero-normalizer
check; whenever the normalizer is zero (empty forest, or weighted mode
with round weights summing to zero) the evaluation still returns
normally, with the unguarded quotient by zero — no fatal-usage error
exists in the code. -/
theorem getMvaValue_zero_norm_unguarded (weighted : Bool) (forest : EvalForest) (ev : Event)
    (h : evalNorm weighted forest ev = 0) :
    GetMvaValueE weighted forest ev = Except.ok (evalMyMVA weighted forest ev / 0) := by
  rw [GetMvaValueE, GetMvaValue, h]

/-- Witness for the amended C6 theorem at a non-empty weighted forest
whose round weights sum to zero. -/
theorem getMvaValue_zero_norm_unguarded_witness :
    GetMvaValueE true [(fun _ => (1 : ℚ), 0)] (Event.mk [] false 2)
      = Except.ok (evalMyMVA true [(fun _ => (1 : ℚ), 0)] (Event.mk [] false 2) / 0) := by
  apply getMvaValue_zero_norm_unguarded
  norm_num [evalNorm, mvaStep]

end BDT

namespace BDT

lemma accumImp_eq_zipWith : ∀ (a b : List ℚ), b.length ≤ a.length →
    accumImp a b = List.zipWith (· + ·) a b ++ a.drop b.length := by
  intro a b
  induction b generalizing a with
  | nil => intro _; simp [accumImp]
  | cons x xs ih =>
    cases a with
    | nil => intro h; simp at h
    | cons y ys =>
      intro h
      simp only [accumImp, List.zipWith_cons_cons, List.length_cons, List.drop_succ_cons,
        List.cons_append]
      rw [ih ys (by simpa using h)]

lemma accumImp_eq_zipWith_of_eq (a b : List ℚ) (h : b.length = a.length) :
    accumImp a b = List.zipWith (· + ·) a b := by
  rw [accumImp_eq_zipWith a b (le_of_eq h), h, List.drop_length, List.append_nil]

lemma foldl_accumImp_eq (n : ℕ) :
    ∀ (imps : List (List ℚ)) (acc : List ℚ), (∀ v ∈ imps, v.length = n) → acc.length = n →
      imps.foldl accumImp acc = imps.foldl (fun a v => List.zipWith (· + ·) a v) acc := by
  intro imps
  induction imps with
  | nil => intro acc _ _; rfl
  | cons v vs ih =>
    intro acc hlen hacc
    have hv : v.length = n := hlen v (by simp)
    rw [List.foldl_cons, List.foldl_cons,
      accumImp_eq_zipWith_of_eq acc v (by rw [hv, hacc])]
    exact ih _ (fun x hx => hlen x (by simp [hx]))
      (by rw [List.length_zipWith, hv, hacc]; simp)

lemma foldl_zipWith_length (n : ℕ) :
    ∀ (imps : List (List ℚ)) (acc : List ℚ), (∀ v ∈ imps, v.length = n) → acc.length = n →
      (imps.foldl (fun a v => List.zipWith (· + ·) a v) acc).length = n := by
  intro imps
  induction imps with
  | nil => intro acc _ h; exact h
  | cons v vs ih =>
    intro acc hlen hacc
    rw [List.foldl_cons]
    exact ih _ (fun x hx => hlen x (by simp [hx]))
      (by rw [List.length_zipWith, hacc, hlen v (by simp)]; simp)

lemma elemSum_length (n : ℕ) (imps : List (List ℚ)) (hlen : ∀ v ∈ imps, v.length = n) :
    (elemSum n imps).length = n :=
  foldl_zipWith_length n imps _ hlen (by simp)

lemma sum_zipWith_add : ∀ (a b : List ℚ), a.length = b.length →
    (List.zipWith (· + ·) a b).sum = a.sum + b.sum := by
  intro a
  induction a with
  | nil =>
    intro b h
    have hb : b = [] := List.length_eq_zero.mp (by simpa using h.symm)
    simp [hb]
  | cons x xs ih =>
    intro b h
    cases b with
    | nil => simp at h
    | cons y ys =>
      simp only [List.length_cons, Nat.succ.injEq] at h
      simp only [List.zipWith_cons_cons, List.sum_cons, ih ys h]
      ring

lemma sum_foldl_zipWith (n : ℕ) :
    ∀ (imps : List (List ℚ)) (acc : List ℚ), (∀ v ∈ imps, v.length = n) → acc.length = n →
      (imps.foldl (fun a v => List.zipWith (· + ·) a v) acc).sum
        = acc.sum + (imps.map List.sum).sum := by
  intro imps
  induction imps with
  | nil => intro acc _ _; simp
  | cons v vs ih =>
    intro acc hlen hacc
    have hv : v.length = n := hlen v (by simp)
    rw [List.foldl_cons, ih _ (fun x hx => hlen x (by simp [hx]))
        (by rw [List.length_zipWith, hacc, hv]; simp),
      sum_zipWith_add acc v (by rw [hacc, hv]), List.map_cons, List.sum_cons]
    ring

lemma elemSum_sum (n : ℕ) (imps : List (List ℚ)) (hlen : ∀ v ∈ imps, v.length = n) :
    (elemSum n imps).sum = (imps.map List.sum).sum := by
  have h := sum_foldl_zipWith n imps (List.replicate n 0) hlen (by simp)
  simpa using h

lemma zipWith_add_nonneg : ∀ (a b : List ℚ), (∀ x ∈ a, 0 ≤ x) → (∀ x ∈ b, 0 ≤ x) →
    ∀ x ∈ List.zipWith (· + ·) a b, 0 ≤ x := by
  intro a
  induction a with
  | nil => intro b _ _ x hx; simp at hx
  | cons y ys ih =>
    intro b ha hb x hx
    cases b with
    | nil => simp at hx
    | cons z zs =>
      rw [List.zipWith_cons_cons] at hx
      rcases List.mem_cons.mp hx with rfl | hx'
      · exact add_nonneg (ha y (by simp)) (hb z (by simp))
      · exact ih zs (fun u hu => ha u (by simp [hu])) (fun u hu => hb u (by simp [hu])) x hx'

lemma foldl_zipWith_nonneg :
    ∀ (imps : List (List ℚ)) (acc : List ℚ),
      (∀ v ∈ imps, ∀ x ∈ v, 0 ≤ x) → (∀ x ∈ acc, 0 ≤ x) →
      ∀ x ∈ imps.foldl (fun a v => List.zipWith (· + ·) a v) acc, 0 ≤ x := by
  intro imps
  induction imps with
  | nil => intro acc _ hacc; exact hacc
  | cons v vs ih =>
    intro acc hv hacc
    rw [List.foldl_cons]
    exact ih _ (fun u hu => hv u (by simp [hu]))
      (zipWith_add_nonneg acc v hacc (hv v (by simp)))

lemma elemSum_nonneg (n : ℕ) (imps : List (List ℚ)) (hnn : ∀ v ∈ imps, ∀ x ∈ v, 0 ≤ x) :
    ∀ x ∈ elemSum n imps, 0 ≤ x :=
  foldl_zipWith_nonneg imps _ hnn
    (fun x hx => by rw [List.eq_of_mem_replicate hx])

lemma elemSum_sum_pos (n : ℕ) (imps : List (List ℚ))
    (hlen : ∀ v ∈ imps, v.length = n)
    (hnn : ∀ v ∈ imps, ∀ x ∈ v, 0 ≤ x)
    (hex : ∃ v ∈ imps, ∃ x ∈ v, 0 < x) :
    0 < (elemSum n imps).sum := by
  rw [elemSum_sum n imps hlen]
  obtain ⟨v, hv, x, hx, hxpos⟩ := hex
  have h1 : x ≤ v.sum := List.single_le_sum (fun y hy => hnn v hv y hy) x hx
  have h2 : v.sum ≤ (imps.map List.sum).sum := by
    apply List.single_le_sum
    · intro y hy
      rcases List.mem_map.mp hy with ⟨u, hu, rfl⟩
      exact List.sum_nonneg (fun z hz => hnn u hu z hz)
    · exact List.mem_map.mpr ⟨v, hv, rfl⟩
  linarith

lemma sum_map_div_const (l : List ℚ) (c : ℚ) :
    (l.map (fun x => x / c)).sum = l.sum / c := by
  simp only [div_eq_mul_inv]
  exact sum_map_mul_const l c⁻¹

lemma sum_map_add (l : List ℚ) (f g : ℚ → ℚ) :
    (l.map (fun x => f x + g x)).sum = (l.map f).sum + (l.map g).sum := by
  induction l with
  | nil => simp
  | cons x xs ih =>
    simp only [List.map_cons, List.sum_cons, ih]
    ring

lemma resizeTo_self (v : List ℚ) (n : ℕ) (h : v.length = n) : resizeTo v n = v := by
  rw [resizeTo, ← h]
  simp

lemma gvi_fresh (nvar : ℕ) (imps : List (List ℚ)) (hlen : ∀ v ∈ imps, v.length = nvar) :
    GetVariableImportance [] nvar imps
      = (elemSum nvar imps).map (fun x => x / (elemSum nvar imps).sum) := by
  show (imps.foldl accumImp (resizeTo [] nvar)).map
      (fun x => x / (imps.foldl accumImp (resizeTo [] nvar)).sum) = _
  have h0 : resizeTo [] nvar = List.replicate nvar 0 := by simp [resizeTo]
  rw [h0, foldl_accumImp_eq nvar imps _ hlen (by simp)]
  rfl

/-- Claim C7: on a fresh instance (empty member vector), one call to
the variable-importance operation returns the elementwise sum of the
per-tree importance vectors divided by its grand total; under the Tree
contract (vectors of length nvar with non-negative entries, at least
one positive) every returned entry is non-negative and the entries sum
to 1. -/
theorem variable_importance_normalized (nvar : ℕ) (imps : List (List ℚ))
    (hlen : ∀ v ∈ imps, v.length = nvar)
    (hnn : ∀ v ∈ imps, ∀ x ∈ v, 0 ≤ x)
    (hex : ∃ v ∈ imps, ∃ x ∈ v, 0 < x) :
    GetVariableImportance [] nvar imps
      = (elemSum nvar imps).map (fun x => x / (elemSum nvar imps).sum)
    ∧ (∀ x ∈ GetVariableImportance [] nvar imps, 0 ≤ x)
    ∧ (GetVariableImportance [] nvar imps).sum = 1 := by
  have hT : 0 < (elemSum nvar imps).sum := elemSum_sum_pos nvar imps hlen hnn hex
  have hfresh := gvi_fresh nvar imps hlen
  refine ⟨hfresh, ?_, ?_⟩
  · intro x hx
    rw [hfresh] at hx
    rcases List.mem_map.mp hx with ⟨y, hy, rfl⟩
    exact div_nonneg (elemSum_nonneg nvar imps hnn y hy) (le_of_lt hT)
  · rw [hfresh, sum_map_div_const]
    exact div_self (ne_of_gt hT)

/-- Witness for C7 at a 2-variable, 2-tree forest with importance
vectors [1,2] and [3,0]: the returned vector is [2/3, 1/3], entrywise
non-negative, and sums to 1. -/
theorem variable_importance_normalized_witness :
    GetVariableImportance [] 2 [[1, 2], [3, 0]] = [2 / 3, 1 / 3]
    ∧ (GetVariableImportance [] 2 [[1, 2], [3, 0]]).sum = 1 := by
  have hlen : ∀ v ∈ [[(1 : ℚ), 2], [3, 0]], v.length = 2 := by
    intro v hv
    simp only [List.mem_cons, List.not_mem_nil, or_false] at hv
    rcases hv with rfl | rfl <;> rfl
  have hnn : ∀ v ∈ [[(1 : ℚ), 2], [3, 0]], ∀ x ∈ v, 0 ≤ x := by
    intro v hv x hx
    simp only [List.mem_cons, List.not_mem_nil, or_false] at hv
    rcases hv with rfl | rfl <;>
      · simp only [List.mem_cons, List.not_mem_nil, or_false] at hx
        rcases hx with rfl | rfl <;> norm_num
  have hex : ∃ v ∈ [[(1 : ℚ), 2], [3, 0]], ∃ x ∈ v, 0 < x :=
    ⟨[1, 2], by simp, 1, by simp, by norm_num⟩
  have h := variable_importance_normalized 2 [[1, 2], [3, 0]] hlen hnn hex
  refine ⟨?_, h.2.2⟩
  rw [h.1]
  norm_num [elemSum, List.zipWith, List.replicate]

end BDT

namespace BDT

lemma zipWith_add_zero : ∀ (a : List ℚ) (n : ℕ), a.length = n →
    List.zipWith (· + ·) a (List.replicate n 0) = a := by
  intro a
  induction a with
  | nil => intro n _; simp
  | cons x xs ih =>
    intro n h
    cases n with
    | zero => simp at h
    | succ m =>
      simp only [List.replicate_succ, List.zipWith_cons_cons, add_zero]
      rw [ih m (by simpa using h)]

lemma zipWith_zero_add : ∀ (a : List ℚ) (n : ℕ), a.length = n →
    List.zipWith (· + ·) (List.replicate n 0) a = a := by
  intro a
  induction a with
  | nil => intro n _; simp
  | cons x xs ih =>
    intro n h
    cases n with
    | zero => simp at h
    | succ m =>
      simp only [List.replicate_succ, List.zipWith_cons_cons, zero_add]
      rw [ih m (by simpa using h)]

lemma zipWith_add_assoc : ∀ (a b c : List ℚ),
    List.zipWith (· + ·) (List.zipWith (· + ·) a b) c
      = List.zipWith (· + ·) a (List.zipWith (· + ·) b c) := by
  intro a
  induction a with
  | nil => intro b c; simp
  | cons x xs ih =>
    intro b c
    cases b with
    | nil => simp
    | cons y ys =>
      cases c with
      | nil => simp
      | cons z zs => simp [List.zipWith_cons_cons, ih, add_assoc]

lemma foldl_zipWith_add_acc (n : ℕ) :
    ∀ (imps : List (List ℚ)) (acc : List ℚ), (∀ v ∈ imps, v.length = n) → acc.length = n →
      imps.foldl (fun a v => List.zipWith (· + ·) a v) acc
        = List.zipWith (· + ·) acc (elemSum n imps) := by
  intro imps
  induction imps with
  | nil =>
    intro acc _ hacc
    show acc = List.zipWith (· + ·) acc (List.replicate n 0)
    rw [zipWith_add_zero acc n hacc]
  | cons v vs ih =>
    intro acc hlen hacc
    have hv : v.length = n := hlen v (by simp)
    have hvs : ∀ x ∈ vs, x.length = n := fun x hx => hlen x (by simp [hx])
    rw [List.foldl_cons,
      ih _ hvs (by rw [List.length_zipWith, hacc, hv]; simp)]
    have hes : elemSum n (v :: vs) = List.zipWith (· + ·) v (elemSum n vs) := by
      show vs.foldl _ (List.zipWith (· + ·) (List.replicate n 0) v) = _
      rw [zipWith_zero_add v n hv]
      exact ih v hvs hv
    rw [hes, zipWith_add_assoc]

lemma zipWith_add_map_self (S : List ℚ) (f : ℚ → ℚ) :
    List.zipWith (· + ·) (S.map f) S = S.map (fun x => f x + x) := by
  induction S with
  | nil => rfl
  | cons x xs ih => simp [ih]

lemma map_div_renorm_idem (S : List ℚ) (hT : 0 < S.sum) :
    (List.zipWith (· + ·) (S.map (fun x => x / S.sum)) S).map
      (fun x => x / (List.zipWith (· + ·) (S.map (fun x => x / S.sum)) S).sum)
      = S.map (fun x => x / S.sum) := by
  have hzip : List.zipWith (· + ·) (S.map (fun x => x / S.sum)) S
      = S.map (fun x => x / S.sum + x) := zipWith_add_map_self S _
  rw [hzip]
  have hsum2 : (S.map (fun x => x / S.sum + x)).sum = 1 + S.sum := by
    rw [sum_map_add S (fun x => x / S.sum) (fun x => x), sum_map_div_const,
      div_self (ne_of_gt hT)]
    simp
  simp only [hsum2, List.map_map]
  apply List.map_congr_left
  intro x _
  simp only [Function.comp_apply]
  have h1 : S.sum ≠ 0 := ne_of_gt hT
  have h2 : (1 : ℚ) + S.sum ≠ 0 := by positivity
  field_simp
  ring

/-- Claim C10 counterexample: on the concrete 2-variable forest whose
single tree has importance vector [1, 2], two successive calls to the
importance operation return the identical vector [1/3, 2/3] — the
claimed disagreement between repeated calls does not occur. -/
theorem importance_repeat_call_unchanged :
    GetVariableImportance (GetVariableImportance [] 2 [[1, 2]]) 2 [[1, 2]]
      = GetVariableImportance [] 2 [[1, 2]] := by
  norm_num [GetVariableImportance, resizeTo, accumImp, List.replicate]

/-- Claim C10 (amended): the member vector is indeed resized but never
reset between calls, so a second call renormalises the first call's
output plus a fresh accumulation; but the retained vector is
proportional to the fresh accumulation, so the renormalisation cancels
it exactly: in exact arithmetic two successive calls on the same
unchanged, non-degenerate forest return the identical vector (repeated
calls can differ only by floating-point rounding, and the member state
growth is not observable in the returned value). -/
theorem importance_call_idempotent (nvar : ℕ) (imps : List (List ℚ))
    (hlen : ∀ v ∈ imps, v.length = nvar)
    (hnn : ∀ v ∈ imps, ∀ x ∈ v, 0 ≤ x)
    (hex : ∃ v ∈ imps, ∃ x ∈ v, 0 < x) :
    GetVariableImportance (GetVariableImportance [] nvar imps) nvar imps
      = GetVariableImportance [] nvar imps := by
  have hT : 0 < (elemSum nvar imps).sum := elemSum_sum_pos nvar imps hlen hnn hex
  have hfresh := gvi_fresh nvar imps hlen
  have hSlen : (elemSum nvar imps).length = nvar := elemSum_length nvar imps hlen
  have hplen : (GetVariableImportance [] nvar imps).length = nvar := by
    rw [hfresh, List.length_map, hSlen]
  have h2 : GetVariableImportance (GetVariableImportance [] nvar imps) nvar imps
      = (List.zipWith (· + ·) (GetVariableImportance [] nvar imps) (elemSum nvar imps)).map
          (fun x => x /
            (List.zipWith (· + ·) (GetVariableImportance [] nvar imps) (elemSum nvar imps)).sum) := by
    show (imps.foldl accumImp (resizeTo (GetVariableImportance [] nvar imps) nvar)).map
        (fun x => x /
          (imps.foldl accumImp (resizeTo (GetVariableImportance [] nvar imps) nvar)).sum) = _
    rw [resizeTo_self _ nvar hplen, foldl_accumImp_eq nvar imps _ hlen hplen,
      foldl_zipWith_add_acc nvar imps _ hlen hplen]
  rw [h2, hfresh]
  exact map_div_renorm_idem (elemSum nvar imps) hT

/-- Witness for the amended C10 theorem at a concrete one-tree forest
with importance vector [2, 1]. -/
theorem importance_call_idempotent_witness :
    GetVariableImportance (GetVariableImportance [] 2 [[2, 1]]) 2 [[2, 1]]
      = GetVariableImportance [] 2 [[2, 1]] := by
  apply importance_call_idempotent
  · intro v hv
    simp only [List.mem_singleton] at hv
    subst hv
    rfl
  · intro v hv x hx
    simp only [List.mem_singleton] at hv
    subst hv
    simp only [List.mem_cons, List.not_mem_nil, or_false] at hx
    rcases hx with rfl | rfl <;> norm_num
  · exact ⟨[2, 1], by simp, 2, by simp, by norm_num⟩

end BDT

namespace BDT

lemma writeEntries_map_fst {T : Type} (k : ℤ) (f : Forest T) :
    (writeEntries k f).map (fun r => r.1) = (List.range f.length).map (fun (j : ℕ) => k + (j : ℤ)) := by
  induction f generalizing k with
  | nil => rfl
  | cons p rest ih =>
    rcases p with ⟨t, w⟩
    rw [writeEntries]
    simp only [List.map_cons, List.length_cons, List.range_succ_eq_map, ih, List.map_map]
    congr 1
    · simp
    · apply List.map_congr_left
      intro j _
      simp only [Function.comp_apply]
      push_cast
      ring

lemma readLoop_writeEntries {T : Type} (f : Forest T) :
    ∀ (i : ℤ), readLoop (i + (f.length : ℤ)) i (writeEntries i f) = Except.ok f := by
  induction f with
  | nil =>
    intro i
    simp [writeEntries, readLoop]
  | cons p rest ih =>
    intro i
    rcases p with ⟨t, w⟩
    have hn : i + (((t, w) :: rest).length : ℤ) = (i + 1) + (rest.length : ℤ) := by
      simp only [List.length_cons]
      push_cast
      ring
    rw [writeEntries, hn]
    simp only [readLoop]
    rw [if_neg (by omega), ih (i + 1)]
    simp

lemma read_write {T : Type} (prev f : Forest T) :
    ReadWeightsFromStream prev (WriteWeightsToStream f) = Except.ok f := by
  show readLoop ((f.length : ℤ)) 0 (writeEntries 0 f) = Except.ok f
  have h := readLoop_writeEntries f 0
  simpa using h

lemma readLoop_ok_facts {T : Type} :
    ∀ (es : List (ℤ × ℚ × T)) (n i : ℤ) (f : Forest T),
      readLoop n i es = Except.ok f →
        (f.length : ℤ) = (n - i).toNat
        ∧ (es.map (fun r => r.1)).take f.length
            = (List.range f.length).map (fun (k : ℕ) => i + (k : ℤ)) := by
  intro es
  induction es with
  | nil =>
    intro n i f h
    simp only [readLoop] at h
    by_cases hni : n ≤ i
    · rw [if_pos hni] at h
      injection h with h'
      subst h'
      refine ⟨by simp; omega, by simp⟩
    · rw [if_neg hni] at h
      exact absurd h (by simp)
  | cons e rest ih =>
    intro n i f h
    rcases e with ⟨idx, w, t⟩
    simp only [readLoop] at h
    by_cases hni : n ≤ i
    · rw [if_pos hni] at h
      injection h with h'
      subst h'
      refine ⟨by simp; omega, by simp⟩
    · rw [if_neg hni] at h
      by_cases hidx : idx = i
      · rw [if_pos hidx] at h
        cases hr : readLoop n (i + 1) rest with
        | ok g =>
          rw [hr] at h
          injection h with h'
          subst h'
          obtain ⟨ih1, ih2⟩ := ih n (i + 1) g hr
          constructor
          · simp only [List.length_cons]
            push_cast
            omega
          · simp only [List.map_cons, List.length_cons, List.take_succ_cons, hidx,
              List.range_succ_eq_map, List.map_cons, List.map_map]
            congr 1
            · simp
            · rw [ih2]
              apply List.map_congr_left
              intro j _
              simp only [Function.comp_apply]
              push_cast
              ring
        | error err =>
          rw [hr] at h
          exact absurd h (by simp)
      · rw [if_neg hidx] at h
        exact absurd h (by simp)

/-- Claim C3: persistence round-trip.  Serialising a forest of k trees
and deserialising reproduces exactly the k entries with identical round
weights, the serialised indices are the sequence 0..k-1, a successful
read implies every consumed record's declared index equals its
position (so a stream with a mismatched index at any consumed position
cannot produce a forest — the reader fails fatally with no partial
forest, the error being the only outcome), and the previous forest
contents have no influence on the result (they are discarded before
reading). -/
theorem persistence_round_trip {T : Type} :
    (∀ (prev f : Forest T),
        ReadWeightsFromStream prev (WriteWeightsToStream f) = Except.ok f)
    ∧ (∀ (f : Forest T),
        (WriteWeightsToStream f).entries.map (fun r => r.1)
          = (List.range f.length).map (fun (k : ℕ) => (k : ℤ)))
    ∧ (∀ (prev : Forest T) (s : WStream T) (f : Forest T),
        ReadWeightsFromStream prev s = Except.ok f →
          (f.length : ℤ) = s.n.toNat
          ∧ (s.entries.map (fun r => r.1)).take f.length
              = (List.range f.length).map (fun (k : ℕ) => (k : ℤ)))
    ∧ (∀ (prev₁ prev₂ : Forest T) (s : WStream T),
        ReadWeightsFromStream prev₁ s = ReadWeightsFromStream prev₂ s) := by
  refine ⟨read_write, ?_, ?_, fun _ _ _ => rfl⟩
  · intro f
    have h := writeEntries_map_fst 0 f
    simpa using h
  · intro prev s f h
    have hfacts := readLoop_ok_facts s.entries s.n 0 f h
    refine ⟨by simpa using hfacts.1, by simpa using hfacts.2⟩

/-- Witness for C3: a concrete 2-tree forest (tree blobs 7 and 9,
round weights 2 and 3) round-trips through the stream regardless of
the previous forest contents, its serialised index sequence is [0, 1],
and a concrete stream whose second declared index is 2 instead of 1
fails with the mismatch error. -/
theorem persistence_round_trip_witness :
    ReadWeightsFromStream ([(99, 5)] : Forest ℕ) (WriteWeightsToStream [(7, 2), (9, 3)])
      = Except.ok [(7, 2), (9, 3)]
    ∧ (WriteWeightsToStream ([(7, 2), (9, 3)] : Forest ℕ)).entries.map (fun r => r.1) = [0, 1]
    ∧ ReadWeightsFromStream ([] : Forest ℕ) (WStream.mk 2 [(0, (1 : ℚ), 5), (2, 1, 6)])
      = Except.error ReadErr.mismatch := by
  refine ⟨(persistence_round_trip).1 [(99, 5)] [(7, 2), (9, 3)], ?_, ?_⟩
  · have h := (persistence_round_trip).2.1 ([(7, 2), (9, 3)] : Forest ℕ)
    rw [h]
    rfl
  · simp only [ReadWeightsFromStream, readLoop]
    norm_num

end BDT
